import Mathlib

/-!
# seda: the `code` command (`src/main.go`)

A shallow embedding of `main.go`: the `code` subcommand derives a target
directory name from its positional arguments, runs `git clone`, resolves the
target to an absolute path and runs an editor on it.  `rootCmd.Execute()` is
cobra's: it parses the flags of the command line first (`codeCmd` has the
automatic `-h`/`--help` flag and no other), then checks the number of
positional arguments, then calls `Run`.

Strings are lists of characters.  The only string operations of the program
(`strings.Split` at the one-byte separator `"/"` and `strings.TrimSuffix` with
the ASCII suffix `".git"`) act the same on bytes and on characters of UTF-8
text.  The outside world (the two child processes, `filepath.Abs`, the
environment) is a parameter of the model, and every effect of a run is
recorded in a trace.
-/

set_option autoImplicit false

namespace Seda

/-- A Go `string`. -/
abbrev GoString := List Char

/-! ## The `strings` functions used by the program -/

/-- `strings.Split(s, sep)` at a one-character separator: the substrings
between the separators, in order; a string without separator gives `[s]`. -/
def Split : GoString → Char → List GoString
  | [], _ => [[]]
  | c :: cs, sep =>
    if c = sep then [] :: Split cs sep
    else
      match Split cs sep with
      | [] => [[c]]
      | p :: ps => (c :: p) :: ps

/-- `strings.HasSuffix(s, suffix)`:
`len(s) >= len(suffix) && s[len(s)-len(suffix):] == suffix`. -/
def HasSuffix (s suffix : GoString) : Bool :=
  decide (s.length ≥ suffix.length) && (s.drop (s.length - suffix.length) == suffix)

/-- `strings.TrimSuffix(s, suffix)`: `s[:len(s)-len(suffix)]` when `s` has the
suffix, else `s`. -/
def TrimSuffix (s suffix : GoString) : GoString :=
  if HasSuffix s suffix then s.take (s.length - suffix.length) else s

/-! ## String constants of the program -/

def slash : Char := '/'

def dotGit : GoString := ['.', 'g', 'i', 't']

def git : GoString := ['g', 'i', 't']

def clone : GoString := ['c', 'l', 'o', 'n', 'e']

def code : GoString := ['c', 'o', 'd', 'e']

def VSCODE_ALTERNATIVE : GoString := "VSCODE_ALTERNATIVE".toList

def errCloning : GoString := "Error cloning repository: ".toList

def errAbsPath : GoString := "Error getting absolute path: ".toList

def errOpening : GoString := "Error opening in editor: ".toList

/-! ## The outside world and the trace of a run -/

/-- What the program asks of its surroundings.  An error is represented by its
text (`err.Error()`). -/
structure World where
  /-- `exec.Command(name, args...).Run()`: `none` is a nil error (the child
  started and exited with status 0), `some err` any failure. -/
  run : GoString → List GoString → Option GoString
  /-- `filepath.Abs(path)`. -/
  abs : GoString → Except GoString GoString
  /-- The environment: `none` for an unset variable. -/
  lookupEnv : GoString → Option GoString

/-- `os.Getenv(key)`: the value, or `""` when the variable is unset. -/
def Getenv (w : World) (key : GoString) : GoString :=
  match w.lookupEnv key with
  | some v => v
  | none => []

/-- An effect of a run, in program order.  `help` is cobra printing the help
of `codeCmd`. -/
inductive Event where
  | exec (name : GoString) (args : List GoString)
  | absCall (path : GoString)
  | getenv (key : GoString)
  | stdout (text : GoString)
  | help
  deriving DecidableEq

/-- How a run ends: the function returned, `os.Exit(code)` was called, or an
index was out of range. -/
inductive Status where
  | returned
  | exit (code : Nat)
  | panicked
  deriving DecidableEq

structure Outcome where
  trace : List Event
  status : Status
  deriving DecidableEq

/-! ## `codeCmd` -/

/-- `cobra.RangeArgs(min, max)`: an error when the number of positional
arguments is outside `[min, max]`, else nil. -/
def RangeArgs (min max : Nat) (args : List GoString) : Option GoString :=
  if args.length < min ∨ args.length > max then
    some ("accepts between ".toList ++ (toString min).toList ++ " and ".toList
      ++ (toString max).toList ++ " arg(s), received ".toList
      ++ (toString args.length).toList)
  else none

/-- Lines 25-33 of `codeCmd.Run`: `repoURL` and `newName`.  `none` is an
index out of range. -/
def newName (args : List GoString) : Option (GoString × GoString) :=
  match args[0]? with
  | none => none
  | some repoURL =>
    if args.length > 1 then
      match args[1]? with
      | none => none
      | some n => some (repoURL, n)
    else
      let parts := Split repoURL slash
      match parts[parts.length - 1]? with
      | none => none
      | some last => some (repoURL, TrimSuffix last dotGit)

/-- Lines 52-55 of `codeCmd.Run`: the editor executable. -/
def editor (w : World) : GoString :=
  let e := Getenv w VSCODE_ALTERNATIVE
  if e = [] then code else e

/-- The `Run` function of `codeCmd`. -/
def codeRun (w : World) (args : List GoString) : Outcome :=
  match newName args with
  | none => ⟨[], .panicked⟩
  | some (repoURL, newName) =>
    let t1 := [Event.exec git [clone, repoURL, newName]]
    match w.run git [clone, repoURL, newName] with
    | some err => ⟨t1 ++ [.stdout (errCloning ++ err ++ ['\n'])], .exit 1⟩
    | none =>
      let t2 := t1 ++ [Event.absCall newName]
      match w.abs newName with
      | .error err => ⟨t2 ++ [.stdout (errAbsPath ++ err ++ ['\n'])], .exit 1⟩
      | .ok absPath =>
        let t3 := t2 ++ [Event.getenv VSCODE_ALTERNATIVE]
        let t4 := t3 ++ [Event.exec (editor w) [absPath]]
        match w.run (editor w) [absPath] with
        | some err => ⟨t4 ++ [.stdout (errOpening ++ err ++ ['\n'])], .exit 1⟩
        | none => ⟨t4, .returned⟩

/-! ## cobra: the command line of `codeCmd` -/

def dash : Char := '-'

def dashdash : GoString := ['-', '-']

def helpName : GoString := ['h', 'e', 'l', 'p']

/-- `strconv.ParseBool`, which reads the value of a boolean flag. -/
def ParseBool (s : GoString) : Option Bool :=
  if s ∈ [['1'], ['t'], ['T'], "TRUE".toList, "true".toList, "True".toList] then some true
  else if s ∈ [['0'], ['f'], ['F'], "FALSE".toList, "false".toList, "False".toList] then
    some false
  else none

/-- `strings.SplitN(s, sep, 2)` at a one-character separator: the text before
the first separator, and the text after it when there is one. -/
def cutAt (sep : Char) : GoString → GoString × Option GoString
  | [] => ([], none)
  | c :: cs =>
    if c = sep then ([], some cs)
    else ((c :: (cutAt sep cs).1), (cutAt sep cs).2)

/-- The characters `"` and `'` of the error messages. -/
def dquote : Char := Char.ofNat 34

def squote : Char := Char.ofNat 39

def errInvalidBool (v : GoString) : GoString :=
  "invalid argument ".toList ++ [dquote] ++ v ++ [dquote] ++ " for ".toList
    ++ [dquote] ++ "-h, --help".toList ++ [dquote]
    ++ " flag: strconv.ParseBool: parsing ".toList ++ [dquote] ++ v ++ [dquote]
    ++ ": invalid syntax".toList

/-- The value given to the help flag by a token `--name` or `--name=value`
(pflag `parseLongArg`); the only flag of `codeCmd` is the boolean `help`, whose
value without `=` is `true`. -/
def parseLongArg (s : GoString) : Except GoString Bool :=
  let name := s.drop 2
  if name.length = 0 ∨ name.head? = some '-' ∨ name.head? = some '=' then
    .error ("bad flag syntax: ".toList ++ s)
  else
    let split := cutAt '=' name
    if split.1 = helpName then
      match split.2 with
      | none => .ok true
      | some v =>
        match ParseBool v with
        | some b => .ok b
        | none => .error (errInvalidBool v)
    else .error ("unknown flag: --".toList ++ split.1)

/-- The shorthand letters of a token `-abc` (pflag `parseShortArg`), read one
at a time: `h` sets the help flag, to the value after `=` when the letter is
followed by `=` and at least one more character; any other letter is an
unknown shorthand. -/
def parseShortArg (help : Bool) : GoString → Except GoString Bool
  | [] => .ok help
  | c :: rest =>
    if c = 'h' then
      if rest.length > 1 ∧ rest.head? = some '=' then
        match ParseBool (rest.drop 1) with
        | some b => .ok b
        | none => .error (errInvalidBool (rest.drop 1))
      else parseShortArg true rest
    else .error ("unknown shorthand flag: ".toList ++ [squote, c, squote]
      ++ " in -".toList ++ (c :: rest))

/-- The flag parsing of the command line of `codeCmd` (pflag `parseArgs`, flags
and positional arguments interspersed): the value of the help flag and the
positional arguments, or the first flag error.  A token that is empty, does
not start with `-`, or is `-` alone is positional; `--` ends the flags. -/
def parseArgs (help : Bool) : List GoString → Except GoString (Bool × List GoString)
  | [] => .ok (help, [])
  | s :: rest =>
    if s.length = 0 ∨ s.head? ≠ some dash ∨ s.length = 1 then
      match parseArgs help rest with
      | .error e => .error e
      | .ok (h, args) => .ok (h, s :: args)
    else if s[1]? = some dash then
      if s.length = 2 then .ok (help, rest)
      else
        match parseLongArg s with
        | .error e => .error e
        | .ok b => parseArgs b rest
    else
      match parseShortArg help (s.drop 1) with
      | .error e => .error e
      | .ok b => parseArgs b rest

/-- `rootCmd.Execute()` for the command line `seda code toks...`: cobra
parses the flags; a flag error is returned; with the help flag set the help
is printed and nil is returned, the `Args` check and `Run` being skipped;
else the `Args` check of `codeCmd` runs on the positional arguments, then its
`Run`.  The second component is the error returned to `main`. -/
def Execute (w : World) (toks : List GoString) : Outcome × Option GoString :=
  match parseArgs false toks with
  | .error e => (⟨[], .returned⟩, some e)
  | .ok (true, _) => (⟨[.help], .returned⟩, none)
  | .ok (false, args) =>
    match RangeArgs 1 2 args with
    | some err => (⟨[], .returned⟩, some err)
    | none => (codeRun w args, none)

/-- The function `main`, for the command line `seda code toks...`: when
`Execute` returns an error it is printed and the process exits with 1. -/
def main (w : World) (toks : List GoString) : Outcome :=
  let r := Execute w toks
  match r.1.status with
  | .returned =>
    match r.2 with
    | some err => ⟨r.1.trace ++ [.stdout (err ++ ['\n'])], .exit 1⟩
    | none => r.1
  | _ => r.1

/-- The exit status of the process: 0 when `main` returns, the argument of
`os.Exit`, 2 for a Go panic. -/
def exitStatus : Status → Nat
  | .returned => 0
  | .exit c => c
  | .panicked => 2

/-- The external invocations of a trace, in order. -/
def invocations : List Event → List (GoString × List GoString)
  | [] => []
  | .exec name args :: es => (name, args) :: invocations es
  | _ :: es => invocations es

/-- The paths given to `filepath.Abs` in a trace, in order. -/
def absCalls : List Event → List GoString
  | [] => []
  | .absCall p :: es => p :: absCalls es
  | _ :: es => absCalls es

/-! ## Sample worlds and inputs -/

/-- A world in which every step succeeds, the working directory is `/home/u`
and the environment is empty. -/
def sampleWorld : World where
  run := fun _ _ => none
  abs := fun p => .ok ("/home/u/".toList ++ p)
  lookupEnv := fun _ => none

/-- The sample world with `VSCODE_ALTERNATIVE=myeditor`. -/
def myeditorWorld : World where
  run := fun _ _ => none
  abs := fun p => .ok ("/home/u/".toList ++ p)
  lookupEnv := fun k => if k = VSCODE_ALTERNATIVE then some "myeditor".toList else none

/-- A world in which every child process fails. -/
def failingWorld : World where
  run := fun _ _ => some "exit status 128".toList
  abs := fun p => .ok ("/home/u/".toList ++ p)
  lookupEnv := fun _ => none

def sampleURL : GoString := "https://example.com/org/sample.git".toList

def dashH : GoString := ['-', 'h']

/-! ## Names as directory entries -/

def dot : GoString := ['.']

def dotdot : GoString := ['.', '.']

/-- Whether a relative name denotes an entry directly under the directory it
is resolved against: a single path component (no `/`) that is neither empty
nor `.` (the directory itself) nor `..` (its parent). -/
def isDirectChild (t : GoString) : Bool :=
  decide (slash ∉ t) && decide (t ≠ []) && decide (t ≠ dot) && decide (t ≠ dotdot)

/-! ## Facts about `Split` and `TrimSuffix` -/

theorem Split_ne_nil (s : GoString) (sep : Char) : Split s sep ≠ [] := by
  cases s with
  | nil => simp [Split]
  | cons c cs =>
    unfold Split
    split
    · simp
    · split <;> simp

theorem Split_of_not_mem (s : GoString) (sep : Char) (h : sep ∉ s) :
    Split s sep = [s] := by
  induction s with
  | nil => rfl
  | cons c cs ih =>
    have hc : ¬ c = sep := fun e => h (by simp [e])
    have hcs : sep ∉ cs := fun e => h (by simp [e])
    simp [Split, hc, ih hcs]

theorem Split_append (pre rest : GoString) (sep : Char) :
    ∃ ini, ini ≠ [] ∧ Split (pre ++ sep :: rest) sep = ini ++ Split rest sep := by
  induction pre with
  | nil => exact ⟨[[]], by simp, by simp [Split]⟩
  | cons c cs ih =>
    obtain ⟨ini, hne, hini⟩ := ih
    obtain ⟨p, ps, rfl⟩ := List.exists_cons_of_ne_nil hne
    by_cases hc : c = sep
    · exact ⟨[] :: p :: ps, by simp, by simp [Split, hc, hini]⟩
    · exact ⟨(c :: p) :: ps, by simp, by simp [Split, hc, hini]⟩

theorem Split_getLast?_append (pre rest : GoString) (sep : Char) :
    (Split (pre ++ sep :: rest) sep).getLast? = (Split rest sep).getLast? := by
  obtain ⟨ini, _, hini⟩ := Split_append pre rest sep
  rw [hini, List.getLast?_append_of_ne_nil _ (Split_ne_nil rest sep)]

theorem not_mem_of_mem_Split (s : GoString) (sep : Char) :
    ∀ p ∈ Split s sep, sep ∉ p := by
  induction s with
  | nil => simp [Split]
  | cons c cs ih =>
    obtain ⟨q, qs, hq⟩ := List.exists_cons_of_ne_nil (Split_ne_nil cs sep)
    rw [hq] at ih
    by_cases hc : c = sep
    · intro p hp
      simp only [Split, hc, hq, if_true, List.mem_cons] at hp
      rcases hp with rfl | hp
      · simp
      · exact ih p (by simpa using hp)
    · intro p hp
      simp only [Split, hc, hq, if_false, List.mem_cons] at hp
      rcases hp with rfl | hp
      · have := ih q (by simp)
        simp only [List.mem_cons, not_or]
        exact ⟨fun e => hc e.symm, this⟩
      · exact ih p (by simp [hp])

theorem HasSuffix_iff (s suffix : GoString) :
    HasSuffix s suffix = true ↔ suffix <:+ s := by
  unfold HasSuffix
  simp only [Bool.and_eq_true, decide_eq_true_eq, beq_iff_eq]
  constructor
  · rintro ⟨_, h⟩
    rw [← h]
    exact List.drop_suffix _ _
  · rintro ⟨t, rfl⟩
    refine ⟨by simp, ?_⟩
    simp

theorem TrimSuffix_append (n suffix : GoString) :
    TrimSuffix (n ++ suffix) suffix = n := by
  have h : HasSuffix (n ++ suffix) suffix = true :=
    (HasSuffix_iff _ _).2 (List.suffix_append _ _)
  simp [TrimSuffix, h]

theorem TrimSuffix_of_not_suffix (s suffix : GoString) (h : ¬ suffix <:+ s) :
    TrimSuffix s suffix = s := by
  have h2 : HasSuffix s suffix = false := by
    rw [← Bool.not_eq_true, HasSuffix_iff]
    exact h
  simp [TrimSuffix, h2]

theorem mem_of_mem_TrimSuffix (s suffix : GoString) (c : Char)
    (h : c ∈ TrimSuffix s suffix) : c ∈ s := by
  unfold TrimSuffix at h
  split at h
  · exact List.mem_of_mem_take h
  · exact h

theorem TrimSuffix_eq_nil_iff (s suffix : GoString) :
    TrimSuffix s suffix = [] ↔ s = [] ∨ s = suffix := by
  by_cases h : suffix <:+ s
  · obtain ⟨t, rfl⟩ := h
    rw [TrimSuffix_append]
    constructor
    · rintro rfl
      simp
    · rintro (h | h)
      · simp at h
        exact h.1
      · simpa using h
  · rw [TrimSuffix_of_not_suffix s suffix h]
    constructor
    · exact Or.inl
    · rintro (h1 | h1)
      · exact h1
      · exact absurd (h1 ▸ List.suffix_refl _) h

/-- The last element of the split of a string, as the program indexes it. -/
theorem Split_last (s : GoString) (sep : Char) :
    ∃ last, (Split s sep)[(Split s sep).length - 1]? = some last ∧ sep ∉ last := by
  obtain ⟨last, hl⟩ : ∃ last, (Split s sep).getLast? = some last := by
    cases h : (Split s sep).getLast? with
    | none => exact absurd (List.getLast?_eq_none_iff.1 h) (Split_ne_nil s sep)
    | some l => exact ⟨l, rfl⟩
  refine ⟨last, ?_, ?_⟩
  · rw [← List.getLast?_eq_getElem?]
    exact hl
  · exact not_mem_of_mem_Split s sep last (List.mem_of_getLast?_eq_some hl)

/-- The last element of the split is the text after the last separator. -/
theorem Split_last_eq (url pre seg : GoString) (sep : Char) (hseg : sep ∉ seg)
    (hurl : url = seg ∨ url = pre ++ sep :: seg) :
    (Split url sep)[(Split url sep).length - 1]? = some seg := by
  rw [← List.getLast?_eq_getElem?]
  rcases hurl with rfl | rfl
  · simp [Split_of_not_mem _ sep hseg]
  · rw [Split_getLast?_append, Split_of_not_mem seg sep hseg]
    simp

/-! ## Facts about the derivation of the target name and about `main` -/

theorem newName_single (url pre seg : GoString) (hseg : slash ∉ seg)
    (hurl : url = seg ∨ url = pre ++ [slash] ++ seg) :
    newName [url] = some (url, TrimSuffix seg dotGit) := by
  have h := Split_last_eq url pre seg slash hseg (by simpa using hurl)
  simp [newName, h]

theorem newName_pair (url n : GoString) : newName [url, n] = some (url, n) := by
  simp [newName]

theorem RangeArgs_eq_none_iff (args : List GoString) :
    RangeArgs 1 2 args = none ↔ args.length = 1 ∨ args.length = 2 := by
  unfold RangeArgs
  split
  · simp only [reduceCtorEq, false_iff]
    omega
  · simp only [true_iff]
    omega

theorem parseArgs_of_no_dash (help : Bool) (toks : List GoString)
    (h : ∀ t ∈ toks, t.head? ≠ some dash) : parseArgs help toks = .ok (help, toks) := by
  induction toks with
  | nil => rfl
  | cons s rest ih =>
    have hs : s.head? ≠ some dash := h s (by simp)
    have hr := ih (fun t ht => h t (by simp [ht]))
    simp [parseArgs, hs, hr]

theorem parseArgs_dashdash (help : Bool) (args : List GoString) :
    parseArgs help (dashdash :: args) = .ok (help, args) := by
  simp [parseArgs, dashdash, dash]

theorem main_of_valid (w : World) (toks args : List GoString)
    (hp : parseArgs false toks = .ok (false, args))
    (h : args.length = 1 ∨ args.length = 2) : main w toks = codeRun w args := by
  have hr := (RangeArgs_eq_none_iff args).2 h
  simp only [main, Execute, hp, hr]
  split <;> rfl

theorem main_of_invalid (w : World) (toks args : List GoString)
    (hp : parseArgs false toks = .ok (false, args))
    (h : ¬ (args.length = 1 ∨ args.length = 2)) :
    ∃ err, main w toks = ⟨[.stdout (err ++ ['\n'])], .exit 1⟩ := by
  have hr : RangeArgs 1 2 args ≠ none := by
    rw [Ne, RangeArgs_eq_none_iff]
    exact h
  cases hx : RangeArgs 1 2 args with
  | none => exact absurd hx hr
  | some err => exact ⟨err, by simp [main, Execute, hp, hx]⟩

theorem main_of_help (w : World) (toks args : List GoString)
    (hp : parseArgs false toks = .ok (true, args)) :
    main w toks = ⟨[.help], .returned⟩ := by
  simp [main, Execute, hp]

theorem main_of_flag_error (w : World) (toks : List GoString) (e : GoString)
    (hp : parseArgs false toks = .error e) :
    main w toks = ⟨[.stdout (e ++ ['\n'])], .exit 1⟩ := by
  simp [main, Execute, hp]

theorem codeRun_trace_head (w : World) (args : List GoString) (url t : GoString)
    (h : newName args = some (url, t)) :
    (codeRun w args).trace.head? = some (Event.exec git [clone, url, t]) := by
  simp only [codeRun, h]
  split
  · rfl
  · split
    · rfl
    · split <;> rfl

theorem codeRun_invocations (w : World) (args : List GoString) (url t : GoString)
    (h : newName args = some (url, t)) :
    invocations (codeRun w args).trace =
      (git, [clone, url, t]) ::
        (match w.run git [clone, url, t] with
          | some _ => []
          | none =>
            match w.abs t with
            | .error _ => []
            | .ok p => [(editor w, [p])]) := by
  simp only [codeRun, h]
  split
  · rfl
  · split
    · rfl
    · split <;> rfl

theorem codeRun_absCalls (w : World) (args : List GoString) (url t : GoString)
    (h : newName args = some (url, t)) :
    absCalls (codeRun w args).trace =
      (match w.run git [clone, url, t] with
        | some _ => []
        | none => [t]) := by
  simp only [codeRun, h]
  split
  · rfl
  · split
    · rfl
    · split <;> rfl

theorem codeRun_exitStatus (w : World) (args : List GoString) (url t : GoString)
    (h : newName args = some (url, t)) :
    exitStatus (codeRun w args).status = 0 ↔
      w.run git [clone, url, t] = none ∧
        ∃ p, w.abs t = .ok p ∧ w.run (editor w) [p] = none := by
  simp only [codeRun, h]
  split
  · next e he => simp [exitStatus, he]
  · next he =>
    split
    · next e ha => simp [exitStatus, he, ha]
    · next q ha =>
      split
      · next e hr => simp [exitStatus, he, ha, hr]
      · next hr => simp [exitStatus, he, ha, hr]

theorem exists_last_segment (url : GoString) :
    ∃ seg, slash ∉ seg ∧ (url = seg ∨ ∃ pre, url = pre ++ [slash] ++ seg) := by
  induction url with
  | nil => exact ⟨[], by simp, Or.inl rfl⟩
  | cons c cs ih =>
    obtain ⟨seg, hseg, h | ⟨pre, h⟩⟩ := ih
    · by_cases hc : c = slash
      · exact ⟨seg, hseg, Or.inr ⟨[], by simp [hc, h]⟩⟩
      · refine ⟨c :: seg, ?_, Or.inl (by rw [h])⟩
        simp only [List.mem_cons, not_or]
        exact ⟨fun e => hc e.symm, hseg⟩
    · exact ⟨seg, hseg, Or.inr ⟨c :: pre, by simp [h]⟩⟩

theorem newName_of_valid (args : List GoString)
    (h : args.length = 1 ∨ args.length = 2) :
    ∃ url t, args.head? = some url ∧ newName args = some (url, t) := by
  match args, h with
  | [url], _ =>
    obtain ⟨last, hl, _⟩ := Split_last url slash
    exact ⟨url, TrimSuffix last dotGit, rfl, by simp [newName, hl]⟩
  | [url, n], _ => exact ⟨url, n, rfl, newName_pair url n⟩
  | [], h => simp at h
  | _ :: _ :: _ :: _, h => simp at h

theorem TrimSuffix_eq_iff (s suffix x : GoString) (hx : ¬ suffix <:+ x) :
    TrimSuffix s suffix = x ↔ s = x ∨ s = x ++ suffix := by
  by_cases h : suffix <:+ s
  · obtain ⟨t, rfl⟩ := h
    rw [TrimSuffix_append]
    constructor
    · rintro rfl
      exact Or.inr rfl
    · rintro (h1 | h1)
      · exact absurd (h1 ▸ List.suffix_append t suffix) hx
      · exact List.append_cancel_right h1
  · rw [TrimSuffix_of_not_suffix s suffix h]
    constructor
    · exact Or.inl
    · rintro (h1 | h1)
      · exact h1
      · exact absurd (h1 ▸ List.suffix_append x suffix) h

theorem main_status_ne_panicked (w : World) (toks : List GoString) :
    (main w toks).status ≠ .panicked := by
  cases hp : parseArgs false toks with
  | error e => simp [main_of_flag_error w toks e hp]
  | ok r =>
    obtain ⟨help, args⟩ := r
    cases help with
    | true => simp [main_of_help w toks args hp]
    | false =>
      by_cases hlen : args.length = 1 ∨ args.length = 2
      · obtain ⟨url, t, _, hn⟩ := newName_of_valid args hlen
        rw [main_of_valid w toks args hp hlen]
        simp only [codeRun, hn]
        split
        · simp
        · split
          · simp
          · split <;> simp
      · obtain ⟨err, he⟩ := main_of_invalid w toks args hp hlen
        simp [he]

/-! ## The claims -/

/-- C1: for every prefix and every name without `/`, the single argument
`prefix/name.git` (and likewise `name.git`) gives the derived target name
`name` exactly, and on every command line whose positional arguments are that
single URL, `name` is the target passed to the clone; the `.git` suffix is
removed once. -/
theorem C1_git_suffix_stripped_once (w : World) (pfx name : GoString)
    (h : slash ∉ name) :
    (newName [pfx ++ [slash] ++ name ++ dotGit]
        = some (pfx ++ [slash] ++ name ++ dotGit, name)
      ∧ ∀ toks, parseArgs false toks = .ok (false, [pfx ++ [slash] ++ name ++ dotGit]) →
        (main w toks).trace.head?
          = some (Event.exec git [clone, pfx ++ [slash] ++ name ++ dotGit, name]))
    ∧ (newName [name ++ dotGit] = some (name ++ dotGit, name)
      ∧ ∀ toks, parseArgs false toks = .ok (false, [name ++ dotGit]) →
        (main w toks).trace.head?
          = some (Event.exec git [clone, name ++ dotGit, name])) := by
  have hseg : slash ∉ name ++ dotGit := by
    simp only [List.mem_append, not_or]
    exact ⟨h, by decide⟩
  have h1 : newName [pfx ++ [slash] ++ name ++ dotGit]
      = some (pfx ++ [slash] ++ name ++ dotGit, name) := by
    rw [newName_single _ pfx (name ++ dotGit) hseg (Or.inr (by simp)), TrimSuffix_append]
  have h2 : newName [name ++ dotGit] = some (name ++ dotGit, name) := by
    rw [newName_single _ [] (name ++ dotGit) hseg (Or.inl rfl), TrimSuffix_append]
  refine ⟨⟨h1, ?_⟩, h2, ?_⟩
  · intro toks hp
    rw [main_of_valid w toks _ hp (Or.inl rfl)]
    exact codeRun_trace_head w _ _ _ h1
  · intro toks hp
    rw [main_of_valid w toks _ hp (Or.inl rfl)]
    exact codeRun_trace_head w _ _ _ h2

/-- C1 at `seda code https://h/x.git.git`: the name `x.git` keeps its own
`.git`, and `x.git` is the clone target. -/
theorem C1_git_suffix_stripped_once_witness :
    slash ∉ "x.git".toList
    ∧ newName ["https://h".toList ++ [slash] ++ "x.git".toList ++ dotGit]
      = some ("https://h/x.git.git".toList, "x.git".toList)
    ∧ (main sampleWorld ["https://h/x.git.git".toList]).trace.head?
      = some (Event.exec git [clone, "https://h/x.git.git".toList, "x.git".toList]) :=
  ⟨by decide,
    (C1_git_suffix_stripped_once sampleWorld "https://h".toList "x.git".toList
      (by decide)).1.1,
    (C1_git_suffix_stripped_once sampleWorld "https://h".toList "x.git".toList
      (by decide)).1.2 ["https://h/x.git.git".toList] rfl⟩

/-- C2: for every URL that does not end with `.git`, the derived target name
of the single argument is the final `/`-delimited segment of the URL,
unchanged: the text after the last `/`, or the whole URL when it has no `/`;
on every command line whose positional arguments are that single URL the
segment is the target passed to the clone. -/
theorem C2_no_git_suffix_last_segment (w : World) (url : GoString)
    (hgit : ¬ dotGit <:+ url) :
    ∃ seg, slash ∉ seg ∧ (url = seg ∨ ∃ pre, url = pre ++ [slash] ++ seg)
      ∧ newName [url] = some (url, seg)
      ∧ ∀ toks, parseArgs false toks = .ok (false, [url]) →
        (main w toks).trace.head? = some (Event.exec git [clone, url, seg]) := by
  obtain ⟨seg, hseg, hurl⟩ := exists_last_segment url
  have hsuf : ¬ dotGit <:+ seg := by
    intro hs
    apply hgit
    rcases hurl with rfl | ⟨pre, rfl⟩
    · exact hs
    · exact hs.trans (List.suffix_append _ _)
  have h1 : newName [url] = some (url, seg) := by
    rcases hurl with h | ⟨pre, h⟩
    · rw [newName_single url [] seg hseg (Or.inl h), TrimSuffix_of_not_suffix _ _ hsuf]
    · rw [newName_single url pre seg hseg (Or.inr h), TrimSuffix_of_not_suffix _ _ hsuf]
  refine ⟨seg, hseg, hurl, h1, ?_⟩
  intro toks hp
  rw [main_of_valid w toks _ hp (Or.inl rfl)]
  exact codeRun_trace_head w _ _ _ h1

/-- C2 at `seda code https://h/x.GIT`: the upper-case suffix is not `.git`,
and the final segment `x.GIT` is the target. -/
theorem C2_no_git_suffix_last_segment_witness :
    ¬ dotGit <:+ "https://h/x.GIT".toList
    ∧ ∃ seg, slash ∉ seg
      ∧ ("https://h/x.GIT".toList = seg ∨ ∃ pre, "https://h/x.GIT".toList = pre ++ [slash] ++ seg)
      ∧ newName ["https://h/x.GIT".toList] = some ("https://h/x.GIT".toList, seg)
      ∧ (main sampleWorld ["https://h/x.GIT".toList]).trace.head?
        = some (Event.exec git [clone, "https://h/x.GIT".toList, seg]) :=
  ⟨by decide,
    (C2_no_git_suffix_last_segment sampleWorld "https://h/x.GIT".toList (by decide)).elim
      fun seg h => ⟨seg, h.1, h.2.1, h.2.2.1, h.2.2.2 ["https://h/x.GIT".toList] rfl⟩⟩

/-- C3: with two arguments `url` and `newName`, the target name is `newName`
verbatim: on every command line whose positional arguments are these two, it
is the target passed to the clone and, when the clone succeeds, the one path
given to the path resolution. -/
theorem C3_second_argument_verbatim (w : World) (url n : GoString) :
    newName [url, n] = some (url, n)
    ∧ ∀ toks, parseArgs false toks = .ok (false, [url, n]) →
      (main w toks).trace.head? = some (Event.exec git [clone, url, n])
      ∧ absCalls (main w toks).trace =
          (match w.run git [clone, url, n] with
            | some _ => []
            | none => [n]) := by
  refine ⟨newName_pair url n, ?_⟩
  intro toks hp
  rw [main_of_valid w toks _ hp (Or.inr rfl)]
  exact ⟨codeRun_trace_head w _ _ _ (newName_pair url n),
    codeRun_absCalls w _ _ _ (newName_pair url n)⟩

/-- C3 at `seda code https://example.com/org/sample.git ../x.git`: the second
argument is used as it is, with its `..`, `/` and `.git`. -/
theorem C3_second_argument_verbatim_witness :
    (main sampleWorld [sampleURL, "../x.git".toList]).trace.head?
      = some (Event.exec git [clone, sampleURL, "../x.git".toList])
    ∧ absCalls (main sampleWorld [sampleURL, "../x.git".toList]).trace
      = ["../x.git".toList] :=
  (C3_second_argument_verbatim sampleWorld sampleURL "../x.git".toList).2
    [sampleURL, "../x.git".toList] rfl

/-- C4, as stated, fails: `seda code a b c -h` has more than 2 arguments and
exits with status 0, and `seda code -h` has 1 argument and makes no clone. -/
theorem C4_counterexample :
    (["a".toList, "b".toList, "c".toList, dashH].length > 2
      ∧ exitStatus (main sampleWorld ["a".toList, "b".toList, "c".toList, dashH]).status = 0)
    ∧ ([dashH].length = 1 ∧ invocations (main sampleWorld [dashH]).trace = []) := by
  decide

/-- C4, amended: on a command line that the flag parsing accepts without a
help request (every command line without a token starting with `-` is one,
its positional arguments being the whole line), with 0 or more than 2
positional arguments the exit status is non-zero and the run makes no
external invocation, and with 1 or 2 the argument check passes and the first
effect of the run is the clone of the first argument.  With the help flag set
the exit status is 0, and after a flag error it is non-zero; in both cases
there is no external invocation. -/
theorem C4_argument_count (w : World) (toks : List GoString) :
    (∀ args, parseArgs false toks = .ok (false, args) →
      ((args.length = 0 ∨ args.length > 2) →
        exitStatus (main w toks).status ≠ 0 ∧ invocations (main w toks).trace = [])
      ∧ ((args.length = 1 ∨ args.length = 2) →
        RangeArgs 1 2 args = none
        ∧ ∃ url t, args.head? = some url
          ∧ (main w toks).trace.head? = some (Event.exec git [clone, url, t])))
    ∧ (∀ args, parseArgs false toks = .ok (true, args) →
      exitStatus (main w toks).status = 0 ∧ invocations (main w toks).trace = [])
    ∧ (∀ e, parseArgs false toks = .error e →
      exitStatus (main w toks).status ≠ 0 ∧ invocations (main w toks).trace = [])
    ∧ ((∀ t ∈ toks, t.head? ≠ some dash) → parseArgs false toks = .ok (false, toks)) := by
  refine ⟨?_, ?_, ?_, parseArgs_of_no_dash false toks⟩
  · intro args hp
    constructor
    · intro h
      obtain ⟨err, he⟩ := main_of_invalid w toks args hp (by omega)
      simp [he, exitStatus, invocations]
    · intro h
      obtain ⟨url, t, hu, hn⟩ := newName_of_valid args h
      refine ⟨(RangeArgs_eq_none_iff args).2 h, url, t, hu, ?_⟩
      rw [main_of_valid w toks args hp h]
      exact codeRun_trace_head w _ _ _ hn
  · intro args hp
    simp [main_of_help w toks args hp, exitStatus, invocations]
  · intro e hp
    simp [main_of_flag_error w toks e hp, exitStatus, invocations]

/-- C4 at `seda code` (no argument), at `seda code a b c`, and at the
one-argument command line of the sample URL. -/
theorem C4_argument_count_witness :
    (exitStatus (main sampleWorld []).status ≠ 0
      ∧ invocations (main sampleWorld []).trace = [])
    ∧ (exitStatus (main sampleWorld ["a".toList, "b".toList, "c".toList]).status ≠ 0
      ∧ invocations (main sampleWorld ["a".toList, "b".toList, "c".toList]).trace = [])
    ∧ (RangeArgs 1 2 [sampleURL] = none
      ∧ ∃ url t, [sampleURL].head? = some url
        ∧ (main sampleWorld [sampleURL]).trace.head?
          = some (Event.exec git [clone, url, t])) :=
  ⟨((C4_argument_count sampleWorld []).1 [] rfl).1 (Or.inl rfl),
    ((C4_argument_count sampleWorld ["a".toList, "b".toList, "c".toList]).1
      ["a".toList, "b".toList, "c".toList] rfl).1 (Or.inr (by decide)),
    ((C4_argument_count sampleWorld [sampleURL]).1 [sampleURL] rfl).2 (Or.inl rfl)⟩

/-- C5: on a command line with 1 or 2 positional arguments, when the clone
fails, the clone is the only external invocation (the editor is not
launched), `filepath.Abs` is not called, and the exit status is non-zero. -/
theorem C5_clone_failure_stops (w : World) (toks args : List GoString)
    (url t err : GoString)
    (hparse : parseArgs false toks = .ok (false, args))
    (hlen : args.length = 1 ∨ args.length = 2)
    (hname : newName args = some (url, t))
    (hfail : w.run git [clone, url, t] = some err) :
    invocations (main w toks).trace = [(git, [clone, url, t])]
    ∧ absCalls (main w toks).trace = []
    ∧ exitStatus (main w toks).status ≠ 0 := by
  rw [main_of_valid w toks args hparse hlen]
  refine ⟨?_, ?_, ?_⟩
  · rw [codeRun_invocations w args url t hname, hfail]
  · rw [codeRun_absCalls w args url t hname, hfail]
  · rw [Ne, codeRun_exitStatus w args url t hname, hfail]
    simp

/-- C5 in the world where every child process fails. -/
theorem C5_clone_failure_stops_witness :
    invocations (main failingWorld [sampleURL]).trace
      = [(git, [clone, sampleURL, "sample".toList])]
    ∧ absCalls (main failingWorld [sampleURL]).trace = []
    ∧ exitStatus (main failingWorld [sampleURL]).status ≠ 0 :=
  C5_clone_failure_stops failingWorld [sampleURL] [sampleURL] sampleURL "sample".toList
    "exit status 128".toList rfl (Or.inl rfl) (by decide) rfl

/-- C6: when `VSCODE_ALTERNATIVE` is set to a non-empty string the editor
executable is that string; when it is unset or empty it is `code`; and in
every run, whatever the command line, the second external invocation (the
editor launch) is of that executable. -/
theorem C6_editor_selection (w : World) :
    (∀ e, w.lookupEnv VSCODE_ALTERNATIVE = some e → e ≠ [] → editor w = e)
    ∧ ((w.lookupEnv VSCODE_ALTERNATIVE = none ∨ w.lookupEnv VSCODE_ALTERNATIVE = some [])
        → editor w = code)
    ∧ (∀ args name a, (invocations (main w args).trace)[1]? = some (name, a) →
        name = editor w) := by
  refine ⟨?_, ?_, ?_⟩
  · intro e he hne
    simp [editor, Getenv, he, hne]
  · rintro (h | h) <;> simp [editor, Getenv, h]
  · intro toks name a h
    cases hp : parseArgs false toks with
    | error e => simp [main_of_flag_error w toks e hp, invocations] at h
    | ok r =>
      obtain ⟨help, args⟩ := r
      cases help with
      | true => simp [main_of_help w toks args hp, invocations] at h
      | false =>
        by_cases hlen : args.length = 1 ∨ args.length = 2
        · obtain ⟨url, t, _, hn⟩ := newName_of_valid args hlen
          rw [main_of_valid w toks args hp hlen, codeRun_invocations w args url t hn] at h
          revert h
          split
          · simp
          · split
            · simp
            · intro h
              simp only [List.getElem?_cons_succ, List.getElem?_cons_zero,
                Option.some.injEq, Prod.mk.injEq] at h
              exact h.1.symm
        · obtain ⟨err, he⟩ := main_of_invalid w toks args hp hlen
          simp [he, invocations] at h

/-- C6 with `VSCODE_ALTERNATIVE=myeditor`: the editor launch of the sample run
invokes `myeditor`. -/
theorem C6_editor_selection_witness :
    editor myeditorWorld = "myeditor".toList
    ∧ (invocations (main myeditorWorld [sampleURL]).trace)[1]?
      = some ("myeditor".toList, ["/home/u/sample".toList]) :=
  ⟨(C6_editor_selection myeditorWorld).1 "myeditor".toList (by decide) (by decide),
    by decide⟩

/-- C7: on a command line with 1 or 2 positional arguments, when the clone,
the path resolution and the editor launch succeed, the run makes exactly two
external invocations, in order: `git clone url target` with `url` the first
argument, then the editor with the absolute path of the target as its only
argument; the process returns normally. -/
theorem C7_two_invocations_in_order (w : World) (toks args : List GoString)
    (url t p : GoString)
    (hparse : parseArgs false toks = .ok (false, args))
    (hlen : args.length = 1 ∨ args.length = 2)
    (hname : newName args = some (url, t))
    (hclone : w.run git [clone, url, t] = none)
    (habs : w.abs t = .ok p)
    (hedit : w.run (editor w) [p] = none) :
    args.head? = some url
    ∧ invocations (main w toks).trace = [(git, [clone, url, t]), (editor w, [p])]
    ∧ absCalls (main w toks).trace = [t]
    ∧ (main w toks).status = .returned := by
  obtain ⟨url2, t2, hu, hn⟩ := newName_of_valid args hlen
  have hpair : (url2, t2) = (url, t) := Option.some.inj (hn.symm.trans hname)
  have hu2 : url2 = url := congrArg Prod.fst hpair
  rw [main_of_valid w toks args hparse hlen]
  refine ⟨hu2 ▸ hu, ?_, ?_, ?_⟩
  · rw [codeRun_invocations w args url t hname, hclone, habs]
  · rw [codeRun_absCalls w args url t hname, hclone]
  · simp [codeRun, hname, hclone, habs, hedit]

/-- C7 on the two end-to-end scenarios: `code https://example.com/org/sample.git`
clones into `sample` and opens `/home/u/sample`; with the second argument
`myproj` the target is `myproj` and `/home/u/myproj` is opened. -/
theorem C7_two_invocations_in_order_witness :
    (invocations (main sampleWorld [sampleURL]).trace
        = [(git, [clone, sampleURL, "sample".toList]),
            (code, ["/home/u/sample".toList])])
    ∧ (invocations (main sampleWorld [sampleURL, "myproj".toList]).trace
        = [(git, [clone, sampleURL, "myproj".toList]),
            (code, ["/home/u/myproj".toList])]) :=
  ⟨(C7_two_invocations_in_order sampleWorld [sampleURL] [sampleURL] sampleURL
      "sample".toList "/home/u/sample".toList rfl (Or.inl rfl) (by decide) rfl rfl rfl).2.1,
    (C7_two_invocations_in_order sampleWorld [sampleURL, "myproj".toList]
      [sampleURL, "myproj".toList] sampleURL "myproj".toList "/home/u/myproj".toList
      rfl (Or.inr rfl) (by decide) rfl rfl rfl).2.1⟩

/-- C8, as stated, fails: in the world where every child process fails,
`seda code -h` exits with status 0 although no clone, path resolution or
editor launch succeeds (none is attempted). -/
theorem C8_counterexample :
    ¬ (exitStatus (main failingWorld [dashH]).status = 0 ↔
      ([dashH].length = 1 ∨ [dashH].length = 2)
      ∧ ∃ url t p, newName [dashH] = some (url, t)
        ∧ failingWorld.run git [clone, url, t] = none
        ∧ failingWorld.abs t = .ok p
        ∧ failingWorld.run (editor failingWorld) [p] = none) := by
  intro h
  obtain ⟨_, _, _, _, _, hrun, _⟩ := h.1 (by decide)
  simp [failingWorld] at hrun

/-- C8, amended: the exit status is 0 exactly when the flag parsing succeeds
and either the help flag is set, or there are 1 or 2 positional arguments and
the clone, the path resolution and the editor launch all succeed; in every
other case (flag error, usage error, clone failure, path-resolution failure,
editor-launch failure) it is 1. -/
theorem C8_exit_status (w : World) (toks : List GoString) :
    (exitStatus (main w toks).status = 0 ↔
      (∃ args, parseArgs false toks = .ok (true, args))
      ∨ ∃ args, parseArgs false toks = .ok (false, args)
        ∧ (args.length = 1 ∨ args.length = 2)
        ∧ ∃ url t p, newName args = some (url, t)
          ∧ w.run git [clone, url, t] = none
          ∧ w.abs t = .ok p
          ∧ w.run (editor w) [p] = none)
    ∧ (exitStatus (main w toks).status = 0 ∨ exitStatus (main w toks).status = 1) := by
  cases hp : parseArgs false toks with
  | error e => simp [main_of_flag_error w toks e hp, exitStatus]
  | ok r =>
    obtain ⟨help, args⟩ := r
    cases help with
    | true => simp [main_of_help w toks args hp, exitStatus]
    | false =>
      by_cases hlen : args.length = 1 ∨ args.length = 2
      · obtain ⟨url, t, _, hn⟩ := newName_of_valid args hlen
        rw [main_of_valid w toks args hp hlen]
        constructor
        · rw [codeRun_exitStatus w args url t hn]
          constructor
          · rintro ⟨hc, p, ha, he⟩
            exact Or.inr ⟨args, rfl, hlen, url, t, p, hn, hc, ha, he⟩
          · rintro (⟨a, ha⟩ | ⟨a, ha, _, url2, t2, p, hn2, hc, hab, he⟩)
            · simp at ha
            · have hargs : a = args := by
                have := Except.ok.inj ha
                exact (congrArg Prod.snd this).symm
              subst hargs
              have hpair : (url2, t2) = (url, t) := Option.some.inj (hn2.symm.trans hn)
              obtain ⟨rfl, rfl⟩ := Prod.mk.inj hpair
              exact ⟨hc, p, hab, he⟩
        · simp only [codeRun, hn]
          split
          · exact Or.inr rfl
          · split
            · exact Or.inr rfl
            · split
              · exact Or.inr rfl
              · exact Or.inl rfl
      · obtain ⟨err, he⟩ := main_of_invalid w toks args hp hlen
        rw [he]
        refine ⟨?_, Or.inr rfl⟩
        constructor
        · intro h0
          simp [exitStatus] at h0
        · rintro (⟨a, ha⟩ | ⟨a, ha, hl, _⟩)
          · simp at ha
          · have hargs : a = args := by
              have := Except.ok.inj ha
              exact (congrArg Prod.snd this).symm
            exact absurd (hargs ▸ hl) hlen

/-- C9: splitting any string on `/` gives at least one segment, so the index
`len(parts)-1` is in range; for 1 or 2 arguments `args[0]` is in range,
`args[1]` is in range when it is read, and the derivation of the target name
returns a value; no run, on any command line, panics. -/
theorem C9_indices_in_range (w : World) (args : List GoString)
    (hlen : args.length = 1 ∨ args.length = 2) :
    (∀ url : GoString, 1 ≤ (Split url slash).length
      ∧ ∃ last, (Split url slash)[(Split url slash).length - 1]? = some last)
    ∧ (∃ url, args[0]? = some url)
    ∧ (args.length > 1 → ∃ n, args[1]? = some n)
    ∧ (∃ r, newName args = some r)
    ∧ (codeRun w args).status ≠ .panicked
    ∧ ∀ toks, (main w toks).status ≠ .panicked := by
  refine ⟨?_, ?_, ?_, ?_, ?_, main_status_ne_panicked w⟩
  · intro url
    refine ⟨List.length_pos.2 (Split_ne_nil url slash), ?_⟩
    obtain ⟨last, hl, _⟩ := Split_last url slash
    exact ⟨last, hl⟩
  · match args, hlen with
    | [url], _ => exact ⟨url, rfl⟩
    | [url, _], _ => exact ⟨url, rfl⟩
    | [], h => simp at h
    | _ :: _ :: _ :: _, h => simp at h
  · intro h1
    match args, hlen with
    | [_, n], _ => exact ⟨n, rfl⟩
    | [_], _ => simp at h1
    | [], h => simp at h
    | _ :: _ :: _ :: _, h => simp at h
  · obtain ⟨url, t, _, hn⟩ := newName_of_valid args hlen
    exact ⟨(url, t), hn⟩
  · obtain ⟨url, t, _, hn⟩ := newName_of_valid args hlen
    simp only [codeRun, hn]
    split
    · simp
    · split
      · simp
      · split <;> simp

/-- C9 at the empty URL and at a URL without `/`. -/
theorem C9_indices_in_range_witness :
    newName [[]] = some ([], [])
    ∧ (∃ r, newName ["repo".toList] = some r)
    ∧ (main sampleWorld [[]]).status ≠ .panicked :=
  ⟨by decide, (C9_indices_in_range sampleWorld ["repo".toList] (Or.inl rfl)).2.2.2.1,
    (C9_indices_in_range sampleWorld [[]] (Or.inl rfl)).2.2.2.2.2 [[]]⟩

/-- C10, as stated, fails: the single argument `https://h/..` gives the target
name `..`, which has no `/` and is not empty, yet is the parent of the current
working directory and not an entry directly under it. -/
theorem C10_counterexample :
    newName ["https://h/..".toList] = some ("https://h/..".toList, dotdot)
    ∧ slash ∉ dotdot ∧ dotdot ≠ [] ∧ isDirectChild dotdot = false := by
  decide

/-- C10, amended: for every URL given as the single argument, the derived
target name contains no `/`; it is empty exactly when the final `/`-delimited
segment of the URL is empty or is `.git`; and it names an entry directly under
the current working directory exactly when that segment is none of the empty
string, `.git`, `.`, `..git`, `..` and `...git`. -/
theorem C10_derived_name_has_no_slash (url : GoString) :
    ∃ t seg, newName [url] = some (url, t)
      ∧ slash ∉ t
      ∧ slash ∉ seg ∧ (url = seg ∨ ∃ pre, url = pre ++ [slash] ++ seg)
      ∧ (t = [] ↔ seg = [] ∨ seg = dotGit)
      ∧ (isDirectChild t = true ↔
          ¬ (seg = [] ∨ seg = dotGit ∨ seg = dot ∨ seg = dot ++ dotGit
            ∨ seg = dotdot ∨ seg = dotdot ++ dotGit)) := by
  obtain ⟨seg, hseg, hurl⟩ := exists_last_segment url
  have h1 : newName [url] = some (url, TrimSuffix seg dotGit) := by
    rcases hurl with h | ⟨pre, h⟩
    · exact newName_single url [] seg hseg (Or.inl h)
    · exact newName_single url pre seg hseg (Or.inr h)
  have hno : slash ∉ TrimSuffix seg dotGit :=
    fun hm => hseg (mem_of_mem_TrimSuffix seg dotGit slash hm)
  refine ⟨TrimSuffix seg dotGit, seg, h1, hno, hseg, hurl,
    TrimSuffix_eq_nil_iff seg dotGit, ?_⟩
  have e0 := TrimSuffix_eq_nil_iff seg dotGit
  have e1 := TrimSuffix_eq_iff seg dotGit dot (by decide)
  have e2 := TrimSuffix_eq_iff seg dotGit dotdot (by decide)
  simp only [isDirectChild, Bool.and_eq_true, decide_eq_true_eq, hno, not_false_eq_true,
    true_and, ne_eq, e0, e1, e2, not_or, and_assoc]

end Seda
